import Mathlib

/-!
Shallow embedding of `pet_s0sgauto.py`: a chat-log extractor (`parse_chat`)
and a JSON merger (`merge_into_pets`).  Text is modelled as `List Char`;
Python `re` patterns are embedded as hand-written matchers (each of the five
patterns in the source is deterministic up to the two backtracking spots in
`ATTR_SEG_RE` and `ROUTE_RE`, which are modelled explicitly).  Python dicts
are modelled as insertion-ordered association lists; `float` values coming
from `\d+(\.\d+)?` captures are modelled as exact rationals (the program
performs no float arithmetic, only parsing, storing and copying).
-/

set_option maxHeartbeats 1000000

abbrev Chars := List Char

/-- Whitespace as recognised by Python's `str.strip` / `str.split` and by
the `\s` class of `re` (Unicode whitespace). -/
def isPySpace (c : Char) : Bool :=
  c == ' ' || c == '\t' || c == '\n' || c == '\x0b' || c == '\x0c' || c == '\r' ||
  c == '\x1c' || c == '\x1d' || c == '\x1e' || c == '\x1f' || c == '\x85' || c == '\xa0' ||
  c == ' ' ||
  c == ' ' || c == ' ' || c == ' ' || c == ' ' || c == ' ' ||
  c == ' ' || c == ' ' || c == ' ' || c == ' ' || c == ' ' ||
  c == ' ' || c == ' ' || c == ' ' || c == ' ' || c == ' ' ||
  c == '　'

/-- Line boundaries of Python's `str.splitlines`. -/
def isLineBreakChar (c : Char) : Bool :=
  c == '\n' || c == '\r' || c == '\x0b' || c == '\x0c' || c == '\x1c' ||
  c == '\x1d' || c == '\x1e' || c == '\x85' || c == ' ' || c == ' '

/-- Worker for `splitlines`; `acc` is the reversed current line. -/
def splitlinesGo (acc : Chars) : Chars → List Chars
  | [] => [acc.reverse]
  | '\r' :: '\n' :: t =>
    acc.reverse :: (if t.isEmpty then [] else splitlinesGo [] t)
  | c :: t =>
    if isLineBreakChar c then
      acc.reverse :: (if t.isEmpty then [] else splitlinesGo [] t)
    else splitlinesGo (c :: acc) t

/-- Python `text.splitlines()` (a trailing break produces no empty line). -/
def splitlines (s : Chars) : List Chars :=
  if s.isEmpty then [] else splitlinesGo [] s

/-- Python `str.strip()` with no argument: drop whitespace on both ends. -/
def pyStrip (s : Chars) : Chars :=
  ((s.dropWhile isPySpace).reverse.dropWhile isPySpace).reverse

/-- Python `str.split()` with no argument: split on whitespace runs,
dropping empty pieces.  `acc` is the reversed current token. -/
def pySplitGo (acc : Chars) : Chars → List Chars
  | [] => if acc.isEmpty then [] else [acc.reverse]
  | c :: t =>
    if isPySpace c then
      (if acc.isEmpty then pySplitGo [] t else acc.reverse :: pySplitGo [] t)
    else pySplitGo (c :: acc) t

def pySplit (s : Chars) : List Chars := pySplitGo [] s

/-- Substring test, modelling Python's `pat in line`. -/
def hasSub (pat : Chars) : Chars → Bool
  | [] => pat.isPrefixOf []
  | s@(_ :: t) => pat.isPrefixOf s || hasSub pat t

/-- Numeric value of a run of ASCII digits (the `int(...)` of a `\d+` capture). -/
def digitsToNat (ds : Chars) : Nat :=
  ds.foldl (fun n c => 10 * n + (c.toNat - 48)) 0

/-- Consume a literal string; models a literal fragment of a regex. -/
def eatLit : Chars → Chars → Option Chars
  | [], s => some s
  | _ :: _, [] => none
  | c :: t, d :: s => if d = c then eatLit t s else none

/-- Consume one expected character. -/
def eatChar (c : Char) : Chars → Option Chars
  | [] => none
  | d :: s => if d = c then some s else none

/-- Models `\s*` (greedy, deterministic wherever the next pattern
element cannot match whitespace). -/
def eatWs (s : Chars) : Chars := s.dropWhile isPySpace

/-- Models a `(\d+)` capture: greedy nonempty digit run, as a number. -/
def eatNat (s : Chars) : Option (Nat × Chars) :=
  match s.takeWhile Char.isDigit with
  | [] => none
  | ds => some (digitsToNat ds, s.dropWhile Char.isDigit)

/-- Exact value of the decimal literal `ip.fs`, modelling `float(...)` of a
`\d+(\.\d+)?` capture (parsed, stored and compared but never computed with). -/
def decRat (ip : Nat) (fs : Chars) : Rat :=
  (ip : Rat) + (digitsToNat fs : Rat) / ((10 : Rat) ^ fs.length)

/-- Models a `(\d+(?:\.\d+)?)` capture.  When a dot is not followed by a
digit the optional group is not taken and the dot is left unconsumed,
exactly as the regex backtracks. -/
def eatDec (s : Chars) : Option (Rat × Chars) :=
  match eatNat s with
  | none => none
  | some (ip, s1) =>
    match s1 with
    | '.' :: s2 =>
      match s2.takeWhile Char.isDigit with
      | [] => some ((ip : Rat), s1)
      | fs => some (decRat ip fs, s2.dropWhile Char.isDigit)
    | _ => some ((ip : Rat), s1)

/-- Unanchored leftmost search: `re.search` for an (effectively)
deterministic anchored matcher `f`, trying every start position. -/
def searchWith {α : Type} (f : Chars → Option α) : Chars → Option α
  | [] => f []
  | s@(_ :: t) =>
    match f s with
    | some r => some r
    | none => searchWith f t

/-- HEADER_RE, anchored by its `^`:
`\[(?P<name>[^\]]+)\]\s*(?:\[(?P<grade>\d)등급\]\s*)?페트 검색 결과 입니다\.`.
Returns the raw name capture and the optional grade digit. -/
def headerMatch (line : Chars) : Option (Chars × Option Char) :=
  match line with
  | '[' :: rest =>
    match rest.takeWhile (· ≠ ']') with
    | [] => none
    | nmc =>
      match rest.dropWhile (· ≠ ']') with
      | ']' :: r2 =>
        let r3 := r2.dropWhile isPySpace
        let p : Option Char × Chars :=
          match r3 with
          | '[' :: d :: '등' :: '급' :: ']' :: r5 =>
            if d.isDigit then (some d, r5.dropWhile isPySpace) else (none, r3)
          | _ => (none, r3)
        if ("페트 검색 결과 입니다.".data).isPrefixOf p.2 then some (nmc, p.1) else none
      | _ => none
  | _ => none

/-- Stat quadruple; field `dfn` carries the Python key `"def"`
(a reserved word in Lean). -/
structure Stats4 (α : Type) where
  atk : α
  dfn : α
  agi : α
  hp : α
deriving DecidableEq, Repr

/-- Models one `,\s*<label>\s*(\d+)` fragment. -/
def eatKeyNat (label : Chars) (s : Chars) : Option (Nat × Chars) := do
  let s ← eatChar ',' s
  let s ← eatLit label (eatWs s)
  eatNat (eatWs s)

/-- Models one `,\s*<label>\s*(\d+(?:\.\d+)?)` fragment. -/
def eatKeyDec (label : Chars) (s : Chars) : Option (Rat × Chars) := do
  let s ← eatChar ',' s
  let s ← eatLit label (eatWs s)
  eatDec (eatWs s)

/-- Models `\s*:?[\s\d]*` (the level part after `레벨`). -/
def eatLevelTail (s : Chars) : Chars :=
  (match eatWs s with | ':' :: t => t | s1 => s1).dropWhile
    (fun c => isPySpace c || c.isDigit)

/-- INIT_RE anchored at one position:
`초기\s*:\s*레벨\s*:?[\s\d]*,\s*공격력\s*(\d+),\s*방어력\s*(\d+),\s*순발력\s*(\d+),\s*내구력\s*(\d+)`. -/
def initAt (s0 : Chars) : Option (Stats4 Nat) := do
  let s ← eatLit "초기".data s0
  let s ← eatChar ':' (eatWs s)
  let s ← eatLit "레벨".data (eatWs s)
  let (atk, s) ← eatKeyNat "공격력".data (eatLevelTail s)
  let (dfn, s) ← eatKeyNat "방어력".data s
  let (agi, s) ← eatKeyNat "순발력".data s
  let (hp, _) ← eatKeyNat "내구력".data s
  pure ⟨atk, dfn, agi, hp⟩

/-- `INIT_RE.search`. -/
def initSearch : Chars → Option (Stats4 Nat) := searchWith initAt

/-- GROW_RE anchored at one position:
`성장\s*:\s*공격력\s*(\d+(?:\.\d+)?),\s*방어력\s*(...),\s*순발력\s*(...),\s*성장\s*\d+(?:\.\d+)?,\s*내구력\s*(...)`.
The fourth number (the aggregate after the second `성장`) sits in a
non-capturing group in the source; it is returned here as the fourth
component of the tuple so that theorems can speak about it, and the
caller drops it exactly as the source does. -/
def growAt (s0 : Chars) : Option (Rat × Rat × Rat × Rat × Rat) := do
  let s ← eatLit "성장".data s0
  let s ← eatChar ':' (eatWs s)
  let s ← eatLit "공격력".data (eatWs s)
  let (atk, s) ← eatDec (eatWs s)
  let (dfn, s) ← eatKeyDec "방어력".data s
  let (agi, s) ← eatKeyDec "순발력".data s
  let (total, s) ← eatKeyDec "성장".data s
  let (hp, _) ← eatKeyDec "내구력".data s
  pure (atk, dfn, agi, total, hp)

/-- `GROW_RE.search`. -/
def growSearch : Chars → Option (Rat × Rat × Rat × Rat × Rat) := searchWith growAt

/-- ATTR_SEG_RE anchored at one position: `속성\s*:\s*([^,]+)`.  When the
maximal whitespace run after the colon is followed by a comma or the end,
the greedy `\s*` backtracks one character and `[^,]+` captures just that
whitespace character — modelled by the two fallback branches. -/
def attrSegAt (s0 : Chars) : Option Chars := do
  let s ← eatLit "속성".data s0
  let s := eatWs s
  let s ← eatChar ':' s
  let w := s.takeWhile isPySpace
  let rest := s.dropWhile isPySpace
  match rest with
  | c :: _ =>
    if c = ',' then
      match w.reverse with
      | cw :: _ => some [cw]
      | [] => none
    else some (rest.takeWhile (· ≠ ','))
  | [] =>
    match w.reverse with
    | cw :: _ => some [cw]
    | [] => none

/-- `ATTR_SEG_RE.search`. -/
def attrSegSearch : Chars → Option Chars := searchWith attrSegAt

/-- ROUTE_RE anchored at one position: `경로\s*:\s*(.+)` where `.` matches
anything but a newline.  When everything after the colon is whitespace the
greedy `\s*` backtracks to let `.+` capture the rightmost non-newline
whitespace character. -/
def routeAt (s0 : Chars) : Option Chars := do
  let s ← eatLit "경로".data s0
  let s := eatWs s
  let s ← eatChar ':' s
  let w := s.takeWhile isPySpace
  let rest := s.dropWhile isPySpace
  match rest with
  | c :: _ =>
    if c = '\n' then
      match w.reverse.dropWhile (· = '\n') with
      | cw :: _ => some [cw]
      | [] => none
    else some (rest.takeWhile (· ≠ '\n'))
  | [] =>
    match w.reverse.dropWhile (· = '\n') with
    | cw :: _ => some [cw]
    | [] => none

/-- `ROUTE_RE.search`. -/
def routeSearch : Chars → Option Chars := searchWith routeAt

/-- Elemental attribute block: the dict literal
`{"지": 0, "수": 0, "화": 0, "풍": 0}` of the source, which always carries
exactly these four keys (`ATTR_TOKEN_RE` can update no other key).
`ji`=지/earth, `su`=수/water, `hwa`=화/fire, `pung`=풍/wind. -/
structure Attr where
  ji : Nat
  su : Nat
  hwa : Nat
  pung : Nat
deriving DecidableEq, Repr

/-- One loop iteration over a token of the attribute segment:
`tok.strip()`, skip empties, `ATTR_TOKEN_RE.match(tok)` =
`([지수화풍])\s*(\d+)` anchored at the token start, and `attr[el] = int(val)`. -/
def applyTok (a : Attr) (tok0 : Chars) : Attr :=
  match pyStrip tok0 with
  | [] => a
  | c :: rest =>
    match (rest.dropWhile isPySpace).takeWhile Char.isDigit with
    | [] => a
    | ds =>
      if c = '지' then { a with ji := digitsToNat ds }
      else if c = '수' then { a with su := digitsToNat ds }
      else if c = '화' then { a with hwa := digitsToNat ds }
      else if c = '풍' then { a with pung := digitsToNat ds }
      else a

/-- The attribute mapping produced from one `속성` segment. -/
def segAttr (seg : Chars) : Attr :=
  (pySplit seg).foldl applyTok ⟨0, 0, 0, 0⟩

/-- `any(v > 0 for v in attr.values())`. -/
def attrPos (a : Attr) : Bool :=
  decide (0 < a.ji) || decide (0 < a.su) || decide (0 < a.hwa) || decide (0 < a.pung)

/-- One record of the extractor's output: the per-pet dict of the source.
Absent dict keys are `none`.  `s0`/`sg` always carry all four stat keys when
present, since the source only ever assigns them a complete four-key dict. -/
structure Record where
  name : String
  grade : Option String := none
  s0 : Option (Stats4 Nat) := none
  sg : Option (Stats4 Rat) := none
  attr : Option Attr := none
  route : Option String := none
deriving DecidableEq, Repr

/-- `grade_digit_to_str`: 1→최상급, 2→상급, otherwise/absent→일반. -/
def grade_digit_to_str (d : Option Char) : String :=
  if d = some '1' then "최상급" else if d = some '2' then "상급" else "일반"

/-- First-match lookup in the insertion-ordered pets dict. -/
def lookupRec : List (String × Record) → String → Option Record
  | [], _ => none
  | (k, r) :: t, n => if k = n then some r else lookupRec t n

/-- In-place update of the (unique) entry with key `n`. -/
def petsModify : List (String × Record) → String → (Record → Record) → List (String × Record)
  | [], _, _ => []
  | (k, r) :: t, n, f => if k = n then (k, f r) :: t else (k, r) :: petsModify t n f

/-- `if name not in pets: pets[name] = {"name": name}` (insertion at the end). -/
def ensureRec (p : List (String × Record)) (n : String) : List (String × Record) :=
  if (lookupRec p n).isSome then p else p ++ [(n, { name := n })]

/-- `if g_digit is not None or "grade" not in current: current["grade"] = g_str`. -/
def setGrade (p : List (String × Record)) (n : String) (gd : Option Char) :
    List (String × Record) :=
  petsModify p n fun r =>
    if gd.isSome || r.grade.isNone then { r with grade := some (grade_digit_to_str gd) } else r

/-- The 4-1) attribute part of a skill line applied to the current record:
write `attr` only when some parsed value is positive. -/
def applyAttr (line : Chars) (r : Record) : Record :=
  match attrSegSearch line with
  | none => r
  | some seg => if attrPos (segAttr seg) then { r with attr := some (segAttr seg) } else r

/-- The 4-2) route part of a skill line: `route = m_route.group(1).strip()`. -/
def applyRoute (line : Chars) (r : Record) : Record :=
  match routeSearch line with
  | none => r
  | some cap => { r with route := some (String.mk (pyStrip cap)) }

/-- Effect of a `기술`/`속성` line on the current record. -/
def applySkill (line : Chars) (r : Record) : Record :=
  applyRoute line (applyAttr line r)

/-- Parser state: the accumulated pets dict and the name of the record the
mutable `current` reference points at (always an entry of `pets`). -/
structure ParseState where
  pets : List (String × Record)
  current : Option String
deriving Repr

/-- One iteration of the `for raw in text.splitlines()` loop of `parse_chat`. -/
def processLine (st : ParseState) (raw : Chars) : ParseState :=
  let line := pyStrip raw
  if line = [] then st
  else
    match headerMatch line with
    | some (nmc, gd) =>
      let nm := String.mk (pyStrip nmc)
      ⟨setGrade (ensureRec st.pets nm) nm gd, some nm⟩
    | none =>
      match st.current with
      | none => st
      | some cur =>
        match initSearch line with
        | some v => ⟨petsModify st.pets cur (fun r => { r with s0 := some v }), st.current⟩
        | none =>
          match growSearch line with
          | some (a, d, g, _, h) =>
            ⟨petsModify st.pets cur (fun r => { r with sg := some ⟨a, d, g, h⟩ }), st.current⟩
          | none =>
            if hasSub "기술".data line && hasSub "속성".data line then
              ⟨petsModify st.pets cur (applySkill line), st.current⟩
            else st

def initState : ParseState := ⟨[], none⟩

def parseLines (lines : List Chars) : ParseState :=
  lines.foldl processLine initState

/-- `parse_chat`: fold the line processor over the split lines of the text. -/
def parse_chat (text : Chars) : List (String × Record) :=
  (parseLines (splitlines text)).pets

/-- Name produced by the header branch for a raw line, if it is a header line. -/
def headerNameOf (raw : Chars) : Option String :=
  match headerMatch (pyStrip raw) with
  | some (nmc, _) => some (String.mk (pyStrip nmc))
  | none => none

/-- JSON values as produced by `json.loads`: objects are insertion-ordered
association lists with (from real JSON) unique string keys; numbers are
modelled as exact rationals (the merger only stores and copies them). -/
inductive JValue where
  | null : JValue
  | bool : Bool → JValue
  | num : Rat → JValue
  | str : String → JValue
  | arr : List JValue → JValue
  | obj : List (String × JValue) → JValue

/-- Python `d.get(k)` / `k in d`: first-match lookup (a dict has unique keys). -/
def objGet : List (String × JValue) → String → Option JValue
  | [], _ => none
  | (k, v) :: t, key => if k = key then some v else objGet t key

/-- Python `d[k] = v`: replace in place if the key exists, else append. -/
def objSet : List (String × JValue) → String → JValue → List (String × JValue)
  | [], key, v => [(key, v)]
  | (k, w) :: t, key, v => if k = key then (k, v) :: t else (k, w) :: objSet t key v

/-- Python `d.update(src)`: assign every key of `src` in order. -/
def objUpdate (t src : List (String × JValue)) : List (String × JValue) :=
  src.foldl (fun acc kv => objSet acc kv.1 kv.2) t

/-- JSON image of an `s0` dict (insertion order of the source's dict literal). -/
def s0ToJ (s : Stats4 Nat) : JValue :=
  JValue.obj [("atk", .num s.atk), ("def", .num s.dfn), ("agi", .num s.agi), ("hp", .num s.hp)]

/-- JSON image of an `sg` dict. -/
def sgToJ (s : Stats4 Rat) : JValue :=
  JValue.obj [("atk", .num s.atk), ("def", .num s.dfn), ("agi", .num s.agi), ("hp", .num s.hp)]

/-- JSON image of an `attr` dict (insertion order of the source's dict literal). -/
def attrToJ (a : Attr) : JValue :=
  JValue.obj [("지", .num a.ji), ("수", .num a.su), ("화", .num a.hwa), ("풍", .num a.pung)]

/-- The recognized fields present on a patch record, in the tuple order
`("grade", "s0", "sg", "attr", "route")` of the source's merge loops;
`isinstance(extra[key], dict)` holds exactly for the `.obj`-valued ones. -/
def extraFieldsJ (r : Record) : List (String × JValue) :=
  (match r.grade with | some g => [("grade", JValue.str g)] | none => []) ++
  (match r.s0 with | some v => [("s0", s0ToJ v)] | none => []) ++
  (match r.sg with | some v => [("sg", sgToJ v)] | none => []) ++
  (match r.attr with | some a => [("attr", attrToJ a)] | none => []) ++
  (match r.route with | some rt => [("route", JValue.str rt)] | none => [])

/-- One key of the per-field merge loop: sub-dicts are merged key-by-key when
the target already holds a dict at that key, otherwise the field is replaced. -/
def mergeField (t : List (String × JValue)) (key : String) (v : JValue) :
    List (String × JValue) :=
  match v, objGet t key with
  | JValue.obj ev, some (JValue.obj tv) => objSet t key (JValue.obj (objUpdate tv ev))
  | _, _ => objSet t key v

/-- The full `for key in ("grade", "s0", "sg", "attr", "route")` loop applied
to one target object. -/
def mergeExtra (t : List (String × JValue)) (r : Record) : List (String × JValue) :=
  (extraFieldsJ r).foldl (fun acc kv => mergeField acc kv.1 kv.2) t

/-- New list entry `{"name": name}` plus the present recognized fields. -/
def recordToObj (name : String) (r : Record) : List (String × JValue) :=
  ("name", JValue.str name) :: extraFieldsJ r

/-- One iteration of the dict-shaped merge: `data.get(name)` is `None` both
for an absent key and for a stored JSON `null`, so either case creates a
fresh `{}` target; a non-dict target is skipped. -/
def dictStep (kvs : List (String × JValue)) (p : String × Record) :
    List (String × JValue) :=
  match objGet kvs p.1 with
  | some (JValue.obj tv) => objSet kvs p.1 (JValue.obj (mergeExtra tv p.2))
  | some JValue.null => objSet kvs p.1 (JValue.obj (mergeExtra [] p.2))
  | some _ => kvs
  | none => objSet kvs p.1 (JValue.obj (mergeExtra [] p.2))

/-- The dict-shaped branch of `merge_into_pets`. -/
def mergeDict (kvs : List (String × JValue)) (patch : List (String × Record)) :
    List (String × JValue) :=
  patch.foldl dictStep kvs

/-- Does `obj["name"]` equal the string `n`?  (`by_name` keys of other JSON
types can never equal a patch name, which is a `str`.) -/
def objNameIs (x : JValue) (n : String) : Bool :=
  match x with
  | JValue.obj d =>
    match objGet d "name" with
    | some (JValue.str m) => m = n
    | _ => false
  | _ => false

/-- `by_name.get(name)` for the list-shaped branch, as the index of the last
list element that is a dict whose `"name"` value is the string `n`
(later iterations of the `for obj in data` loop overwrite earlier ones). -/
def byNameIdx : List JValue → String → Option Nat
  | [], _ => none
  | x :: t, n =>
    match byNameIdx t n with
    | some i => some (i + 1)
    | none => if objNameIs x n then some 0 else none

/-- `by_name[obj["name"]] = obj` raises `TypeError: unhashable type` when the
`"name"` value is a JSON array or object (Python list/dict). -/
def nameKeyBad (x : JValue) : Bool :=
  match x with
  | JValue.obj d =>
    match objGet d "name" with
    | some (JValue.arr _) => true
    | some (JValue.obj _) => true
    | _ => false
  | _ => false

/-- Whether building `by_name` over the list raises `TypeError`. -/
def hasUnhashableName (xs : List JValue) : Bool := xs.any nameKeyBad

/-- Apply the per-field merge loop to a list element (always a dict when
reached through `by_name`). -/
def mergeObjFun (extra : Record) : JValue → JValue
  | JValue.obj tv => JValue.obj (mergeExtra tv extra)
  | v => v

/-- In-place update of the element at index `i`. -/
def modifyIdx {α : Type} (f : α → α) : Nat → List α → List α
  | _, [] => []
  | 0, x :: t => f x :: t
  | n + 1, x :: t => x :: modifyIdx f n t

/-- One iteration of the list-shaped merge loop: `by_name` was built from the
original list `orig` before the loop, targets are mutated in place inside the
accumulator, and unmatched patch entries are appended at the end. -/
def listStep (orig : List JValue) (acc : List JValue) (p : String × Record) :
    List JValue :=
  match byNameIdx orig p.1 with
  | some i => modifyIdx (mergeObjFun p.2) i acc
  | none => acc ++ [JValue.obj (recordToObj p.1 p.2)]

/-- The list-shaped branch of `merge_into_pets`. -/
def mergeList (xs : List JValue) (patch : List (String × Record)) : List JValue :=
  patch.foldl (listStep xs) xs

/-- Errors `merge_into_pets` can raise: the explicit `ValueError` for an
unrecognized dataset shape, and the `TypeError` from hashing a list/dict
`"name"` value while building `by_name`. -/
inductive MergeErr where
  | valueError : MergeErr
  | typeErrorUnhashable : MergeErr
deriving DecidableEq, Repr

/-- `merge_into_pets` after `json.loads`: the dict branch, the list branch,
or the `ValueError` raise.  The file I/O of the source is plumbing outside
this model; `patch` is the `parse_chat` result. -/
def merge_into_pets (data : JValue) (patch : List (String × Record)) :
    Except MergeErr JValue :=
  match data with
  | JValue.obj kvs => .ok (JValue.obj (mergeDict kvs patch))
  | JValue.arr xs =>
    if hasUnhashableName xs then .error .typeErrorUnhashable
    else .ok (JValue.arr (mergeList xs patch))
  | _ => .error .valueError

/-- The patch entry (if any) that targets position `i` of the original list,
applied to the element at that position. -/
def applyHit (xs : List JValue) (patch : List (String × Record)) (i : Nat)
    (x : JValue) : JValue :=
  match patch.find? (fun p => byNameIdx xs p.1 == some i) with
  | some p => mergeObjFun p.2 x
  | none => x

/-- Specification-side description of the list-shaped merge, following the
spec's words: every pre-existing element keeps its position (merged in place
when some patch entry targets it), and the genuinely new entries are appended
at the end in patch order.  Compared against `mergeList` in the theorems. -/
def specUpd (xs : List JValue) (patch : List (String × Record)) :
    Nat → List JValue → List JValue
  | _, [] => []
  | i, x :: t => applyHit xs patch i x :: specUpd xs patch (i + 1) t

/-- Specification-side list of the appended new entries, in patch order. -/
def specNews (xs : List JValue) (patch : List (String × Record)) : List JValue :=
  (patch.filter (fun p => (byNameIdx xs p.1).isNone)).map
    (fun p => JValue.obj (recordToObj p.1 p.2))

/-- Specification-side result of the list-shaped merge. -/
def mergeListSpec (xs : List JValue) (patch : List (String × Record)) : List JValue :=
  specUpd xs patch 0 xs ++ specNews xs patch

/-! Lemmas about the pets association list. -/

theorem lookupRec_petsModify (p : List (String × Record)) (n m : String) (f : Record → Record) :
    lookupRec (petsModify p n f) m =
      if m = n then (lookupRec p n).map f else lookupRec p m := by
  induction p with
  | nil => simp [petsModify, lookupRec]
  | cons hd tl ih =>
    obtain ⟨k, r⟩ := hd
    by_cases hk : k = n
    · subst hk
      by_cases hm : m = k
      · subst hm; simp [petsModify, lookupRec]
      · have h1 : ¬ k = m := fun h => hm h.symm
        simp [petsModify, lookupRec, hm, h1]
    · by_cases hm : m = n
      · subst hm
        simp [petsModify, lookupRec, hk, ih]
      · simp [petsModify, lookupRec, hk, hm, ih]

theorem petsModify_keys (p : List (String × Record)) (n : String) (f : Record → Record) :
    (petsModify p n f).map Prod.fst = p.map Prod.fst := by
  induction p with
  | nil => rfl
  | cons hd tl ih =>
    obtain ⟨k, r⟩ := hd
    by_cases hk : k = n
    · simp [petsModify, hk]
    · simp [petsModify, hk, ih]

theorem lookupRec_append (p q : List (String × Record)) (m : String) :
    lookupRec (p ++ q) m =
      match lookupRec p m with
      | some r => some r
      | none => lookupRec q m := by
  induction p with
  | nil => simp [lookupRec]
  | cons hd tl ih =>
    obtain ⟨k, r⟩ := hd
    by_cases hk : k = m
    · simp [lookupRec, hk]
    · simp [lookupRec, hk, ih]

theorem lookupRec_none_iff (p : List (String × Record)) (n : String) :
    lookupRec p n = none ↔ n ∉ p.map Prod.fst := by
  induction p with
  | nil => simp [lookupRec]
  | cons hd tl ih =>
    obtain ⟨k, r⟩ := hd
    by_cases hk : k = n
    · subst hk; simp [lookupRec]
    · have h1 : ¬ n = k := fun h => hk h.symm
      simp [lookupRec, hk, ih, h1]

theorem lookupRec_ensureRec_self (p : List (String × Record)) (n : String) :
    lookupRec (ensureRec p n) n = some ((lookupRec p n).getD { name := n }) := by
  unfold ensureRec
  cases h : lookupRec p n with
  | some r => simp [h]
  | none => simp [h, lookupRec_append, lookupRec]

theorem ensureRec_keys (p : List (String × Record)) (n : String) :
    (ensureRec p n).map Prod.fst =
      if (lookupRec p n).isSome then p.map Prod.fst else p.map Prod.fst ++ [n] := by
  unfold ensureRec
  cases h : lookupRec p n with
  | some r => simp [h]
  | none => simp [h]

theorem lookupRec_ensureRec_ne (p : List (String × Record)) (n m : String) (h : m ≠ n) :
    lookupRec (ensureRec p m) n = lookupRec p n := by
  unfold ensureRec
  cases hm : lookupRec p m with
  | some r => simp
  | none =>
    simp only [hm, Option.isSome_none, Bool.false_eq_true, if_false, lookupRec_append]
    cases hn : lookupRec p n with
    | some r => rfl
    | none => simp [lookupRec, h]

theorem lookupRec_setGrade_self (p : List (String × Record)) (n : String) (gd : Option Char) :
    lookupRec (setGrade p n gd) n =
      (lookupRec p n).map fun r =>
        if gd.isSome || r.grade.isNone then { r with grade := some (grade_digit_to_str gd) }
        else r := by
  unfold setGrade
  simp [lookupRec_petsModify]

/-- C1: on a header line, `grade` is updated exactly when a grade digit is
present or the record has no grade yet; digit 1 resolves to 최상급 (top),
digit 2 to 상급 (high), any other or absent digit to 일반 (normal); hence a
digitless header never downgrades an established grade, while a header with
a digit other than 1 or 2 overwrites it with 일반. -/
theorem claim1_grade_rule :
    grade_digit_to_str (some '1') = "최상급" ∧
    grade_digit_to_str (some '2') = "상급" ∧
    grade_digit_to_str none = "일반" ∧
    (∀ c : Char, ¬ c = '1' → ¬ c = '2' → grade_digit_to_str (some c) = "일반") ∧
    (∀ (st : ParseState) (raw nmc : Chars) (gd : Option Char),
      headerMatch (pyStrip raw) = some (nmc, gd) →
      ∃ r', lookupRec (processLine st raw).pets (String.mk (pyStrip nmc)) = some r' ∧
        r'.grade =
          if gd.isSome || ((lookupRec st.pets (String.mk (pyStrip nmc))).bind Record.grade).isNone
          then some (grade_digit_to_str gd)
          else (lookupRec st.pets (String.mk (pyStrip nmc))).bind Record.grade) := by
  refine ⟨rfl, rfl, rfl, ?_, ?_⟩
  · intro c h1 h2
    simp [grade_digit_to_str, h1, h2]
  · intro st raw nmc gd hm
    have hnil : ¬ pyStrip raw = [] := by
      intro h0
      rw [h0] at hm
      simp [headerMatch] at hm
    simp only [processLine, if_neg hnil, hm]
    rw [lookupRec_setGrade_self, lookupRec_ensureRec_self]
    cases hold : lookupRec st.pets (String.mk (pyStrip nmc)) with
    | none =>
      refine ⟨_, rfl, ?_⟩
      simp
    | some r =>
      refine ⟨_, rfl, ?_⟩
      by_cases hc : (gd.isSome || r.grade.isNone) = true
      · simp [hc]
      · simp only [Option.getD_some, Option.bind_some]
        rw [if_neg hc, if_neg ?_]
        · rfl
        · exact hc

theorem lookupRec_setGrade_ne (p : List (String × Record)) (n m : String) (gd : Option Char)
    (h : ¬ m = n) : lookupRec (setGrade p n gd) m = lookupRec p m := by
  unfold setGrade
  rw [lookupRec_petsModify, if_neg h]

theorem setGrade_keys (p : List (String × Record)) (n : String) (gd : Option Char) :
    (setGrade p n gd).map Prod.fst = p.map Prod.fst := by
  unfold setGrade
  exact petsModify_keys ..

theorem processLine_keys (st : ParseState) (raw : Chars) :
    ((processLine st raw).pets).map Prod.fst =
      match headerNameOf raw with
      | some nm =>
        if (lookupRec st.pets nm).isSome then st.pets.map Prod.fst
        else st.pets.map Prod.fst ++ [nm]
      | none => st.pets.map Prod.fst := by
  unfold processLine headerNameOf
  by_cases hnil : pyStrip raw = []
  · rw [hnil]
    simp [headerMatch]
  · rw [if_neg hnil]
    cases hm : headerMatch (pyStrip raw) with
    | some v =>
      obtain ⟨nmc, gd⟩ := v
      simp only [setGrade_keys, ensureRec_keys]
    | none =>
      cases st.current with
      | none => simp
      | some cur =>
        cases initSearch (pyStrip raw) with
        | some v => simp [petsModify_keys]
        | none =>
          cases growSearch (pyStrip raw) with
          | some v => simp [petsModify_keys]
          | none =>
            by_cases hs : (hasSub "기술".data (pyStrip raw) && hasSub "속성".data (pyStrip raw)) = true
            · simp [hs, petsModify_keys]
            · simp [hs]

theorem processLine_isSome (st : ParseState) (raw : Chars) (nm : String) :
    (lookupRec (processLine st raw).pets nm).isSome ↔
      ((lookupRec st.pets nm).isSome ∨ headerNameOf raw = some nm) := by
  unfold processLine headerNameOf
  by_cases hnil : pyStrip raw = []
  · rw [hnil]
    simp [headerMatch]
  · rw [if_neg hnil]
    cases hm : headerMatch (pyStrip raw) with
    | some v =>
      obtain ⟨nmc, gd⟩ := v
      by_cases he : String.mk (pyStrip nmc) = nm
      · subst he
        simp only [lookupRec_setGrade_self, lookupRec_ensureRec_self]
        simp
      · have he' : ¬ nm = String.mk (pyStrip nmc) := fun h => he h.symm
        rw [lookupRec_setGrade_ne _ _ _ _ he', lookupRec_ensureRec_ne _ _ _ he]
        simp [he]
    | none =>
      cases st.current with
      | none => simp
      | some cur =>
        cases initSearch (pyStrip raw) with
        | some v => simp [lookupRec_petsModify]; split <;> simp_all
        | none =>
          cases growSearch (pyStrip raw) with
          | some v => simp [lookupRec_petsModify]; split <;> simp_all
          | none =>
            by_cases hs : (hasSub "기술".data (pyStrip raw) && hasSub "속성".data (pyStrip raw)) = true
            · simp [hs, lookupRec_petsModify]; split <;> simp_all
            · simp [hs]

theorem processLine_nodup (st : ParseState) (raw : Chars)
    (h : (st.pets.map Prod.fst).Nodup) :
    ((processLine st raw).pets.map Prod.fst).Nodup := by
  rw [processLine_keys]
  cases hh : headerNameOf raw with
  | none => exact h
  | some nm =>
    by_cases hex : (lookupRec st.pets nm).isSome
    · simp [hex, h]
    · have hnone : lookupRec st.pets nm = none := by
        cases hv : lookupRec st.pets nm with
        | none => rfl
        | some r => rw [hv] at hex; simp at hex
      have hnotmem : nm ∉ st.pets.map Prod.fst := (lookupRec_none_iff _ _).mp hnone
      simp [hex, List.nodup_append, h, hnotmem]

theorem parse_fold_keys (lines : List Chars) :
    ∀ st : ParseState, (st.pets.map Prod.fst).Nodup →
      ((lines.foldl processLine st).pets.map Prod.fst).Nodup ∧
      (∀ nm, (lookupRec (lines.foldl processLine st).pets nm).isSome ↔
        ((lookupRec st.pets nm).isSome ∨ ∃ raw ∈ lines, headerNameOf raw = some nm)) := by
  induction lines with
  | nil =>
    intro st h
    refine ⟨h, fun nm => ?_⟩
    simp
  | cons raw rest ih =>
    intro st h
    obtain ⟨h1, h2⟩ := ih (processLine st raw) (processLine_nodup st raw h)
    refine ⟨h1, fun nm => ?_⟩
    rw [List.foldl_cons, h2 nm, processLine_isSome]
    simp only [List.mem_cons]
    constructor
    · rintro (⟨hs | hh⟩ | ⟨r, hr, hh⟩)
      · exact Or.inl hs
      · exact Or.inr ⟨raw, Or.inl rfl, hh⟩
      · exact Or.inr ⟨r, Or.inr hr, hh⟩
    · rintro (hs | ⟨r, hr | hr, hh⟩)
      · exact Or.inl (Or.inl hs)
      · exact Or.inl (Or.inr (hr ▸ hh))
      · exact Or.inr ⟨r, hr, hh⟩

/-- C4: every entity name appearing in any header line appears exactly once
as a key of the extractor's output (keys are duplicate-free, and a key is
present exactly when some header line produced that name); field lines and
repeated headers therefore update the existing record instead of creating a
duplicate or dropping it. -/
theorem claim4_unique_records (text : Chars) :
    ((parse_chat text).map Prod.fst).Nodup ∧
    (∀ nm, (lookupRec (parse_chat text) nm).isSome ↔
      ∃ raw ∈ splitlines text, headerNameOf raw = some nm) := by
  obtain ⟨h1, h2⟩ := parse_fold_keys (splitlines text) initState (by simp [initState])
  refine ⟨h1, fun nm => ?_⟩
  rw [parse_chat, parseLines] at *
  rw [h2 nm]
  simp [initState, lookupRec]

theorem applyRoute_attr (line : Chars) (r : Record) : (applyRoute line r).attr = r.attr := by
  unfold applyRoute
  cases routeSearch line <;> rfl

theorem applySkill_attr_of_none (line : Chars) (r : Record)
    (h : attrSegSearch line = none) : (applySkill line r).attr = r.attr := by
  unfold applySkill applyAttr
  rw [h, applyRoute_attr]

theorem applySkill_attr_of_zero (line : Chars) (r : Record) (seg : Chars)
    (h : attrSegSearch line = some seg) (hz : attrPos (segAttr seg) = false) :
    (applySkill line r).attr = r.attr := by
  unfold applySkill applyAttr
  rw [h, applyRoute_attr]
  simp [hz]

theorem applySkill_attr_of_pos (line : Chars) (r : Record) (seg : Chars)
    (h : attrSegSearch line = some seg) (hp : attrPos (segAttr seg) = true) :
    (applySkill line r).attr = some (segAttr seg) := by
  unfold applySkill applyAttr
  rw [h, applyRoute_attr]
  simp [hp]

theorem applySkill_attr_inv (line : Chars) (r : Record) (a : Attr)
    (h : (applySkill line r).attr = some a) :
    r.attr = some a ∨ attrPos a = true := by
  cases hseg : attrSegSearch line with
  | none =>
    rw [applySkill_attr_of_none line r hseg] at h
    exact Or.inl h
  | some seg =>
    cases hz : attrPos (segAttr seg) with
    | false =>
      rw [applySkill_attr_of_zero line r seg hseg hz] at h
      exact Or.inl h
    | true =>
      rw [applySkill_attr_of_pos line r seg hseg hz] at h
      obtain rfl : segAttr seg = a := Option.some.inj h
      exact Or.inr hz

theorem headerMatch_ne_nil {l : Chars} {v : Chars × Option Char}
    (h : headerMatch l = some v) : ¬ l = [] := by
  intro h0
  rw [h0] at h
  simp [headerMatch] at h

theorem processLine_empty (st : ParseState) (raw : Chars) (h : pyStrip raw = []) :
    processLine st raw = st := by
  unfold processLine
  rw [h]
  simp

theorem processLine_header (st : ParseState) (raw nmc : Chars) (gd : Option Char)
    (hm : headerMatch (pyStrip raw) = some (nmc, gd)) :
    processLine st raw =
      ⟨setGrade (ensureRec st.pets (String.mk (pyStrip nmc))) (String.mk (pyStrip nmc)) gd,
        some (String.mk (pyStrip nmc))⟩ := by
  unfold processLine
  rw [if_neg (headerMatch_ne_nil hm), hm]

theorem processLine_nocur (st : ParseState) (raw : Chars) (hnil : ¬ pyStrip raw = [])
    (hm : headerMatch (pyStrip raw) = none) (hcur : st.current = none) :
    processLine st raw = st := by
  unfold processLine
  rw [if_neg hnil, hm, hcur]

theorem processLine_init (st : ParseState) (raw : Chars) (cur : String) (v : Stats4 Nat)
    (hnil : ¬ pyStrip raw = []) (hm : headerMatch (pyStrip raw) = none)
    (hcur : st.current = some cur) (hi : initSearch (pyStrip raw) = some v) :
    processLine st raw =
      ⟨petsModify st.pets cur (fun r => { r with s0 := some v }), st.current⟩ := by
  unfold processLine
  rw [if_neg hnil, hm, hcur, hi]

theorem processLine_grow (st : ParseState) (raw : Chars) (cur : String)
    (a d g t h : Rat)
    (hnil : ¬ pyStrip raw = []) (hm : headerMatch (pyStrip raw) = none)
    (hcur : st.current = some cur) (hi : initSearch (pyStrip raw) = none)
    (hg : growSearch (pyStrip raw) = some (a, d, g, t, h)) :
    processLine st raw =
      ⟨petsModify st.pets cur (fun r => { r with sg := some ⟨a, d, g, h⟩ }), st.current⟩ := by
  unfold processLine
  rw [if_neg hnil, hm, hcur, hi, hg]

theorem processLine_skill (st : ParseState) (raw : Chars) (cur : String)
    (hnil : ¬ pyStrip raw = []) (hm : headerMatch (pyStrip raw) = none)
    (hcur : st.current = some cur) (hi : initSearch (pyStrip raw) = none)
    (hg : growSearch (pyStrip raw) = none)
    (hs : (hasSub "기술".data (pyStrip raw) && hasSub "속성".data (pyStrip raw)) = true) :
    processLine st raw = ⟨petsModify st.pets cur (applySkill (pyStrip raw)), st.current⟩ := by
  unfold processLine
  rw [if_neg hnil, hm, hcur, hi, hg]
  dsimp only
  rw [if_pos hs]

theorem processLine_other (st : ParseState) (raw : Chars) (cur : String)
    (hnil : ¬ pyStrip raw = []) (hm : headerMatch (pyStrip raw) = none)
    (hcur : st.current = some cur) (hi : initSearch (pyStrip raw) = none)
    (hg : growSearch (pyStrip raw) = none)
    (hs : ¬ (hasSub "기술".data (pyStrip raw) && hasSub "속성".data (pyStrip raw)) = true) :
    processLine st raw = st := by
  unfold processLine
  rw [if_neg hnil, hm, hcur, hi, hg]
  dsimp only
  rw [if_neg hs]

theorem processLine_attr_inv (st : ParseState) (raw : Chars)
    (h : ∀ nm r a, lookupRec st.pets nm = some r → r.attr = some a → attrPos a = true) :
    ∀ nm r a, lookupRec (processLine st raw).pets nm = some r → r.attr = some a →
      attrPos a = true := by
  intro nm r a hl ha
  by_cases hnil : pyStrip raw = []
  · rw [processLine_empty st raw hnil] at hl
    exact h nm r a hl ha
  cases hm : headerMatch (pyStrip raw) with
  | some v =>
    obtain ⟨nmc, gd⟩ := v
    rw [processLine_header st raw nmc gd hm] at hl
    by_cases he : String.mk (pyStrip nmc) = nm
    · subst he
      rw [lookupRec_setGrade_self, lookupRec_ensureRec_self] at hl
      have hr : (if (gd.isSome ||
            (((lookupRec st.pets (String.mk (pyStrip nmc))).getD
              { name := String.mk (pyStrip nmc) }).grade).isNone) = true then
          { (lookupRec st.pets (String.mk (pyStrip nmc))).getD
              { name := String.mk (pyStrip nmc) } with
            grade := some (grade_digit_to_str gd) }
        else (lookupRec st.pets (String.mk (pyStrip nmc))).getD
              { name := String.mk (pyStrip nmc) }) = r := Option.some.inj hl
      have hattr : r.attr =
          ((lookupRec st.pets (String.mk (pyStrip nmc))).getD
            { name := String.mk (pyStrip nmc) }).attr := by
        rw [← hr]
        split <;> rfl
      cases hold : lookupRec st.pets (String.mk (pyStrip nmc)) with
      | none =>
        rw [hold] at hattr
        rw [hattr] at ha
        exact Option.noConfusion ha
      | some r0 =>
        rw [hold] at hattr
        rw [hattr] at ha
        exact h _ r0 a hold ha
    · have he' : ¬ nm = String.mk (pyStrip nmc) := fun hx => he hx.symm
      rw [lookupRec_setGrade_ne _ _ _ _ he', lookupRec_ensureRec_ne _ _ _ he] at hl
      exact h nm r a hl ha
  | none =>
    cases hcur : st.current with
    | none =>
      rw [processLine_nocur st raw hnil hm hcur] at hl
      exact h nm r a hl ha
    | some cur =>
      cases hi : initSearch (pyStrip raw) with
      | some v =>
        rw [processLine_init st raw cur v hnil hm hcur hi] at hl
        simp only [lookupRec_petsModify] at hl
        by_cases hc : nm = cur
        · rw [if_pos hc] at hl
          cases hold : lookupRec st.pets cur with
          | none => rw [hold] at hl; exact Option.noConfusion hl
          | some r0 =>
            rw [hold] at hl
            have hr : _ = r := Option.some.inj hl
            have : r.attr = r0.attr := by rw [← hr]
            rw [this] at ha
            exact h _ r0 a hold ha
        · rw [if_neg hc] at hl
          exact h nm r a hl ha
      | none =>
        cases hg : growSearch (pyStrip raw) with
        | some v =>
          obtain ⟨va, vd, vg, vt, vh⟩ := v
          rw [processLine_grow st raw cur va vd vg vt vh hnil hm hcur hi hg] at hl
          simp only [lookupRec_petsModify] at hl
          by_cases hc : nm = cur
          · rw [if_pos hc] at hl
            cases hold : lookupRec st.pets cur with
            | none => rw [hold] at hl; exact Option.noConfusion hl
            | some r0 =>
              rw [hold] at hl
              have hr : _ = r := Option.some.inj hl
              have : r.attr = r0.attr := by rw [← hr]
              rw [this] at ha
              exact h _ r0 a hold ha
          · rw [if_neg hc] at hl
            exact h nm r a hl ha
        | none =>
          by_cases hs : (hasSub "기술".data (pyStrip raw) && hasSub "속성".data (pyStrip raw)) = true
          · rw [processLine_skill st raw cur hnil hm hcur hi hg hs] at hl
            simp only [lookupRec_petsModify] at hl
            by_cases hc : nm = cur
            · rw [if_pos hc] at hl
              cases hold : lookupRec st.pets cur with
              | none => rw [hold] at hl; exact Option.noConfusion hl
              | some r0 =>
                rw [hold] at hl
                have hr : applySkill (pyStrip raw) r0 = r := Option.some.inj hl
                rw [← hr] at ha
                rcases applySkill_attr_inv _ r0 a ha with h0 | h0
                · exact h _ r0 a hold h0
                · exact h0
            · rw [if_neg hc] at hl
              exact h nm r a hl ha
          · rw [processLine_other st raw cur hnil hm hcur hi hg hs] at hl
            exact h nm r a hl ha

theorem parse_fold_attr (lines : List Chars) :
    ∀ st : ParseState,
      (∀ nm r a, lookupRec st.pets nm = some r → r.attr = some a → attrPos a = true) →
      ∀ nm r a, lookupRec ((lines.foldl processLine st)).pets nm = some r →
        r.attr = some a → attrPos a = true := by
  induction lines with
  | nil => intro st h; exact h
  | cons raw rest ih =>
    intro st h
    exact ih (processLine st raw) (processLine_attr_inv st raw h)

/-- C2: the `attr` field of an output record, when present, is the complete
four-key mapping 지/수/화/풍 (`Attr` carries exactly these four keys, as the
source's dict literal does) with at least one positive value; a skill line
whose parsed elemental values are all zero — including the case of no
well-formed element token — leaves `attr` untouched, so it never creates the
field, while a line with a positive value writes the full mapping. -/
theorem claim2_attr_rule :
    (∀ (text : Chars) (nm : String) (r : Record) (a : Attr),
        lookupRec (parse_chat text) nm = some r → r.attr = some a → attrPos a = true) ∧
    (∀ (line : Chars) (r : Record), attrSegSearch line = none →
        (applySkill line r).attr = r.attr) ∧
    (∀ (line : Chars) (r : Record) (seg : Chars), attrSegSearch line = some seg →
        attrPos (segAttr seg) = false → (applySkill line r).attr = r.attr) ∧
    (∀ (line : Chars) (r : Record) (seg : Chars), attrSegSearch line = some seg →
        attrPos (segAttr seg) = true → (applySkill line r).attr = some (segAttr seg)) := by
  refine ⟨?_, applySkill_attr_of_none, applySkill_attr_of_zero, applySkill_attr_of_pos⟩
  intro text nm r a hl ha
  exact parse_fold_attr (splitlines text) initState
    (by intro nm' r' a' hl' _; simp [initState, lookupRec] at hl') nm r a hl ha

theorem initSearch_ne_nil {v : Stats4 Nat} (h : initSearch ([] : Chars) = some v) : False := by
  simp [initSearch, searchWith, initAt, eatLit] at h

theorem growSearch_ne_nil {v : Rat × Rat × Rat × Rat × Rat}
    (h : growSearch ([] : Chars) = some v) : False := by
  simp [growSearch, searchWith, growAt, eatLit] at h

theorem petsModify_petsModify (p : List (String × Record)) (n : String)
    (f g : Record → Record) :
    petsModify (petsModify p n f) n g = petsModify p n (fun r => g (f r)) := by
  induction p with
  | nil => rfl
  | cons hd tl ih =>
    obtain ⟨k, r⟩ := hd
    by_cases hk : k = n
    · simp [petsModify, hk]
    · simp [petsModify, hk, ih]

/-- C5: a growth-stat line stores exactly the four captured stats in `sg`
(the `Stats4` value carries only the atk/def/agi/hp keys), and the aggregate
`성장` figure — parsed by the pattern as the fourth number — influences
nothing: two growth lines agreeing on the four stats but with different
aggregates produce identical parser states. -/
theorem claim5_aggregate_discarded :
    (∀ (st : ParseState) (raw : Chars) (cur : String) (a d g t h : Rat),
      st.current = some cur →
      headerMatch (pyStrip raw) = none →
      initSearch (pyStrip raw) = none →
      growSearch (pyStrip raw) = some (a, d, g, t, h) →
      (lookupRec (processLine st raw).pets cur).map Record.sg =
        (lookupRec st.pets cur).map (fun _ => some ⟨a, d, g, h⟩)) ∧
    (∀ (st : ParseState) (l1 l2 : Chars) (a d g t1 t2 h : Rat),
      headerMatch (pyStrip l1) = none → headerMatch (pyStrip l2) = none →
      initSearch (pyStrip l1) = none → initSearch (pyStrip l2) = none →
      growSearch (pyStrip l1) = some (a, d, g, t1, h) →
      growSearch (pyStrip l2) = some (a, d, g, t2, h) →
      processLine st l1 = processLine st l2) := by
  constructor
  · intro st raw cur a d g t h hcur hm hi hg
    have hnil : ¬ pyStrip raw = [] := by
      intro h0
      rw [h0] at hg
      exact growSearch_ne_nil hg
    rw [processLine_grow st raw cur a d g t h hnil hm hcur hi hg]
    simp only [lookupRec_petsModify, if_pos rfl]
    cases lookupRec st.pets cur <;> rfl
  · intro st l1 l2 a d g t1 t2 h hm1 hm2 hi1 hi2 hg1 hg2
    have hn1 : ¬ pyStrip l1 = [] := by
      intro h0; rw [h0] at hg1; exact growSearch_ne_nil hg1
    have hn2 : ¬ pyStrip l2 = [] := by
      intro h0; rw [h0] at hg2; exact growSearch_ne_nil hg2
    cases hcur : st.current with
    | none =>
      rw [processLine_nocur st l1 hn1 hm1 hcur, processLine_nocur st l2 hn2 hm2 hcur]
    | some cur =>
      rw [processLine_grow st l1 cur a d g t1 h hn1 hm1 hcur hi1 hg1,
        processLine_grow st l2 cur a d g t2 h hn2 hm2 hcur hi2 hg2]

/-- C8: re-processing the same base-stat line (or the same growth-stat line)
leaves every record's `s0` (respectively `sg`) mapping — indeed the whole
parser state — unchanged: the per-key merge of a constant four-key dict is
idempotent. -/
theorem claim8_stat_idempotent :
    (∀ (st : ParseState) (raw : Chars) (v : Stats4 Nat),
      headerMatch (pyStrip raw) = none →
      initSearch (pyStrip raw) = some v →
      ∀ nm, (lookupRec (processLine (processLine st raw) raw).pets nm).map Record.s0 =
        (lookupRec (processLine st raw).pets nm).map Record.s0) ∧
    (∀ (st : ParseState) (raw : Chars) (a d g t h : Rat),
      headerMatch (pyStrip raw) = none →
      initSearch (pyStrip raw) = none →
      growSearch (pyStrip raw) = some (a, d, g, t, h) →
      ∀ nm, (lookupRec (processLine (processLine st raw) raw).pets nm).map Record.sg =
        (lookupRec (processLine st raw).pets nm).map Record.sg) := by
  constructor
  · intro st raw v hm hi nm
    have hnil : ¬ pyStrip raw = [] := by
      intro h0; rw [h0] at hi; exact initSearch_ne_nil hi
    cases hcur : st.current with
    | none =>
      rw [processLine_nocur st raw hnil hm hcur, processLine_nocur st raw hnil hm hcur]
    | some cur =>
      rw [processLine_init st raw cur v hnil hm hcur hi]
      have hcur1 : (⟨petsModify st.pets cur fun r => { r with s0 := some v },
          st.current⟩ : ParseState).current = some cur := hcur
      rw [processLine_init _ raw cur v hnil hm hcur1 hi]
      rw [petsModify_petsModify]
  · intro st raw a d g t h hm hi hg nm
    have hnil : ¬ pyStrip raw = [] := by
      intro h0; rw [h0] at hg; exact growSearch_ne_nil hg
    cases hcur : st.current with
    | none =>
      rw [processLine_nocur st raw hnil hm hcur, processLine_nocur st raw hnil hm hcur]
    | some cur =>
      rw [processLine_grow st raw cur a d g t h hnil hm hcur hi hg]
      have hcur1 : (⟨petsModify st.pets cur fun r => { r with sg := some ⟨a, d, g, h⟩ },
          st.current⟩ : ParseState).current = some cur := hcur
      rw [processLine_grow _ raw cur a d g t h hnil hm hcur1 hi hg]
      rw [petsModify_petsModify]

/-! Lemmas about the JSON object association list and the merger. -/

theorem objGet_objSet_self (t : List (String × JValue)) (k : String) (v : JValue) :
    objGet (objSet t k v) k = some v := by
  induction t with
  | nil => simp [objSet, objGet]
  | cons hd tl ih =>
    obtain ⟨k0, w⟩ := hd
    by_cases hk : k0 = k
    · simp [objSet, objGet, hk]
    · simp [objSet, objGet, hk, ih]

theorem objGet_objSet_ne (t : List (String × JValue)) (k m : String) (v : JValue)
    (h : ¬ m = k) : objGet (objSet t k v) m = objGet t m := by
  have h0 : ¬ k = m := fun hx => h hx.symm
  induction t with
  | nil => simp [objSet, objGet, h0]
  | cons hd tl ih =>
    obtain ⟨k0, w⟩ := hd
    by_cases hk : k0 = k
    · subst hk
      have h1 : ¬ k0 = m := fun hx => h hx.symm
      simp [objSet, objGet, h1, h]
    · by_cases hm : k0 = m
      · simp [objSet, objGet, hk, hm, h]
      · simp [objSet, objGet, hk, hm, ih]

theorem mergeField_objGet_ne (t : List (String × JValue)) (key m : String) (v : JValue)
    (h : ¬ m = key) : objGet (mergeField t key v) m = objGet t m := by
  unfold mergeField
  split <;> exact objGet_objSet_ne _ _ _ _ h

/-- Membership of a merge-loop key: the five recognized field names. -/
def isMergeKey (k : String) : Bool :=
  k == "grade" || k == "s0" || k == "sg" || k == "attr" || k == "route"

theorem extraFieldsJ_keys (r : Record) :
    ∀ kv ∈ extraFieldsJ r, isMergeKey kv.1 = true := by
  intro kv hkv
  unfold extraFieldsJ at hkv
  simp only [List.mem_append] at hkv
  rcases hkv with ((((h | h) | h) | h) | h) <;>
    · revert h
      split <;> intro h <;> simp at h <;> simp [h, isMergeKey]

theorem mergeExtra_objGet_other (t : List (String × JValue)) (r : Record) (k : String)
    (hk : isMergeKey k = false) : objGet (mergeExtra t r) k = objGet t k := by
  unfold mergeExtra
  have hall : ∀ kv ∈ extraFieldsJ r, isMergeKey kv.1 = true := extraFieldsJ_keys r
  generalize extraFieldsJ r = l at hall
  induction l generalizing t with
  | nil => rfl
  | cons hd tl ih =>
    rw [List.foldl_cons]
    rw [ih (mergeField t hd.1 hd.2) (fun kv hkv => hall kv (List.mem_cons_of_mem _ hkv))]
    refine mergeField_objGet_ne _ _ _ _ ?_
    intro hke
    rw [hke] at hk
    rw [hall hd (List.mem_cons_self _ _)] at hk
    exact Bool.noConfusion hk

/-- Is the stored value a mapping or `null`?  These are the two cases where
the dict-branch of the merger writes through the key (for `null`, because
Python's `data.get(name)` returns `None` for it). -/
def isObjOrNull : JValue → Bool
  | JValue.obj _ => true
  | JValue.null => true
  | _ => false

theorem dictStep_objGet_ne (kvs : List (String × JValue)) (p : String × Record)
    (n : String) (h : ¬ n = p.1) : objGet (dictStep kvs p) n = objGet kvs n := by
  unfold dictStep
  split <;> first
    | rfl
    | exact objGet_objSet_ne _ _ _ _ h

theorem mergeDict_skips_nonobj (kvs : List (String × JValue))
    (patch : List (String × Record)) (n : String) (v : JValue)
    (hv : objGet kvs n = some v) (hno : isObjOrNull v = false) :
    objGet (mergeDict kvs patch) n = some v := by
  unfold mergeDict
  induction patch generalizing kvs with
  | nil => exact hv
  | cons p rest ih =>
    rw [List.foldl_cons]
    refine ih (dictStep kvs p) ?_
    by_cases hn : n = p.1
    · subst hn
      unfold dictStep
      rw [hv]
      cases v with
      | null => simp [isObjOrNull] at hno
      | obj tv => simp [isObjOrNull] at hno
      | bool b => exact hv
      | num q => exact hv
      | str s => exact hv
      | arr a => exact hv
    · rw [dictStep_objGet_ne _ _ _ hn]
      exact hv

/-- C9 counterexample: with a stored `null` under the patch name, the merger
does not leave the value unchanged — `data.get(name)` is `None` for a JSON
`null`, so the entry is replaced by a fresh object built from the patch
fields (the patch used is producible by the extractor from one header line). -/
theorem claim9_null_replaced :
    merge_into_pets (JValue.obj [("a", JValue.null)])
        [("a", { name := "a", grade := some "일반" })] =
      Except.ok (JValue.obj [("a", JValue.obj [("grade", JValue.str "일반")])]) ∧
    ¬ JValue.obj [("grade", JValue.str "일반")] = JValue.null :=
  ⟨rfl, fun h => JValue.noConfusion h⟩

/-- C9 (amended): in a keyed-mapping dataset, a stored value that is neither
a mapping nor `null` is left completely unchanged, every patch field for that
name is silently discarded, and no error is raised; a stored `null`, however,
is treated like an absent key and replaced by a new object built from the
patch fields. -/
theorem claim9_nonmapping_untouched (kvs : List (String × JValue))
    (patch : List (String × Record)) (n : String) (v : JValue)
    (hv : objGet kvs n = some v) (hno : isObjOrNull v = false) :
    merge_into_pets (JValue.obj kvs) patch = Except.ok (JValue.obj (mergeDict kvs patch)) ∧
    objGet (mergeDict kvs patch) n = some v :=
  ⟨rfl, mergeDict_skips_nonobj kvs patch n v hv hno⟩

theorem claim9_witness :
    objGet [("a", JValue.str "x")] "a" = some (JValue.str "x") ∧
    isObjOrNull (JValue.str "x") = false ∧
    (merge_into_pets (JValue.obj [("a", JValue.str "x")])
        [("a", { name := "a", grade := some "일반" })] =
      Except.ok (JValue.obj (mergeDict [("a", JValue.str "x")]
        [("a", { name := "a", grade := some "일반" })])) ∧
    objGet (mergeDict [("a", JValue.str "x")]
        [("a", { name := "a", grade := some "일반" })]) "a" = some (JValue.str "x")) :=
  ⟨rfl, rfl, claim9_nonmapping_untouched _ _ "a" _ rfl rfl⟩

/-- C7 counterexample: a sequence dataset containing a mapping whose `name`
value is itself an array makes the merger raise `TypeError` (an unhashable
`by_name` key) instead of returning normally, already with an empty patch. -/
theorem claim7_unhashable_raises :
    merge_into_pets (JValue.arr [JValue.obj [("name", JValue.arr [])]]) [] =
      Except.error MergeErr.typeErrorUnhashable ∧
    ¬ (∃ out, merge_into_pets (JValue.arr [JValue.obj [("name", JValue.arr [])]]) [] =
        Except.ok out) ∧
    ¬ MergeErr.typeErrorUnhashable = MergeErr.valueError := by
  refine ⟨rfl, ?_, fun h => MergeErr.noConfusion h⟩
  rintro ⟨out, h⟩
  rw [show merge_into_pets (JValue.arr [JValue.obj [("name", JValue.arr [])]])
      ([] : List (String × Record)) = Except.error MergeErr.typeErrorUnhashable from rfl] at h
  exact Except.noConfusion h

/-- C7 (amended): the invalid-dataset `ValueError` is raised exactly when the
parsed value is neither a mapping nor a sequence; a mapping always merges
normally, and a sequence merges normally unless some element is a mapping
whose `name` value is an array or mapping, in which case the unhashable-key
`TypeError` is raised instead. -/
theorem merge_arr_def (xs : List JValue) (patch : List (String × Record)) :
    merge_into_pets (JValue.arr xs) patch =
      if hasUnhashableName xs = true then Except.error MergeErr.typeErrorUnhashable
      else Except.ok (JValue.arr (mergeList xs patch)) := rfl

theorem claim7_error_iff (data : JValue) (patch : List (String × Record)) :
    (merge_into_pets data patch = Except.error MergeErr.valueError ↔
      ((∀ kvs, ¬ data = JValue.obj kvs) ∧ (∀ xs, ¬ data = JValue.arr xs))) ∧
    (∀ kvs, data = JValue.obj kvs →
      merge_into_pets data patch = Except.ok (JValue.obj (mergeDict kvs patch))) ∧
    (∀ xs, data = JValue.arr xs → hasUnhashableName xs = false →
      merge_into_pets data patch = Except.ok (JValue.arr (mergeList xs patch))) ∧
    (∀ xs, data = JValue.arr xs → hasUnhashableName xs = true →
      merge_into_pets data patch = Except.error MergeErr.typeErrorUnhashable) := by
  refine ⟨?_, ?_, ?_, ?_⟩
  · cases data with
    | obj kvs => simp [merge_into_pets]
    | arr xs =>
      rw [merge_arr_def]
      constructor
      · intro h
        by_cases hu : hasUnhashableName xs = true
        · rw [if_pos hu] at h
          exact absurd (Except.error.inj h) (fun hc => MergeErr.noConfusion hc)
        · rw [if_neg hu] at h
          exact Except.noConfusion h
      · rintro ⟨h1, h2⟩
        exact absurd rfl (h2 xs)
    | null => simp [merge_into_pets]
    | bool b => simp [merge_into_pets]
    | num q => simp [merge_into_pets]
    | str s => simp [merge_into_pets]
  · rintro kvs rfl
    rfl
  · rintro xs rfl hno
    rw [merge_arr_def, hno]
    rfl
  · rintro xs rfl hyes
    rw [merge_arr_def, if_pos hyes]

theorem claim7_witness :
    (merge_into_pets (JValue.num 3) [] = Except.error MergeErr.valueError ↔
      ((∀ kvs, ¬ JValue.num 3 = JValue.obj kvs) ∧ (∀ xs, ¬ JValue.num 3 = JValue.arr xs))) ∧
    merge_into_pets (JValue.num 3) [] = Except.error MergeErr.valueError :=
  ⟨(claim7_error_iff (JValue.num 3) []).1, rfl⟩

/-! Machinery relating `mergeList` to its specification-side description. -/

theorem objNameIs_unique (x : JValue) (n m : String)
    (hn : objNameIs x n = true) (hm : objNameIs x m = true) : n = m := by
  unfold objNameIs at hn hm
  cases x <;> simp at hn hm
  case obj d =>
    revert hn hm
    cases objGet d "name" with
    | none => intro hn; exact Bool.noConfusion hn
    | some v =>
      cases v <;> intro hn hm <;> first
        | exact Bool.noConfusion hn
        | · simp at hn hm
            exact hn.symm.trans hm

theorem byNameIdx_none (xs : List JValue) (n : String) (h : byNameIdx xs n = none) :
    ∀ j x, xs.get? j = some x → objNameIs x n = false := by
  induction xs with
  | nil => intro j x hx; simp at hx
  | cons y t ih =>
    intro j x hx
    unfold byNameIdx at h
    revert h
    cases hb : byNameIdx t n with
    | some i => intro h; exact Option.noConfusion h
    | none =>
      intro h
      by_cases hy : objNameIs y n = true
      · rw [if_pos hy] at h; exact Option.noConfusion h
      · cases j with
        | zero =>
          obtain rfl : y = x := Option.some.inj hx
          exact Bool.eq_false_iff.mpr hy
        | succ j' => exact ih hb j' x hx

theorem byNameIdx_get (xs : List JValue) (n : String) (i : Nat)
    (h : byNameIdx xs n = some i) :
    ∃ x, xs.get? i = some x ∧ objNameIs x n = true := by
  induction xs generalizing i with
  | nil => exact Option.noConfusion h
  | cons y t ih =>
    unfold byNameIdx at h
    revert h
    cases hb : byNameIdx t n with
    | some j =>
      intro h
      obtain rfl : j + 1 = i := Option.some.inj h
      obtain ⟨x, hx, hn⟩ := ih j hb
      exact ⟨x, hx, hn⟩
    | none =>
      by_cases hy : objNameIs y n = true
      · rw [if_pos hy]
        intro h
        obtain rfl : 0 = i := Option.some.inj h
        exact ⟨y, rfl, hy⟩
      · rw [if_neg hy]
        intro h
        exact Option.noConfusion h

theorem byNameIdx_last (xs : List JValue) (n : String) (i : Nat)
    (h : byNameIdx xs n = some i) :
    ∀ j x, xs.get? j = some x → objNameIs x n = true → j ≤ i := by
  induction xs generalizing i with
  | nil => exact Option.noConfusion h
  | cons y t ih =>
    intro j x hx hn
    unfold byNameIdx at h
    revert h
    cases hb : byNameIdx t n with
    | some i' =>
      intro h
      obtain rfl : i' + 1 = i := Option.some.inj h
      cases j with
      | zero => exact Nat.zero_le _
      | succ j' => exact Nat.succ_le_succ (ih i' hb j' x hx hn)
    | none =>
      by_cases hy : objNameIs y n = true
      · rw [if_pos hy]
        intro h
        obtain rfl : 0 = i := Option.some.inj h
        cases j with
        | zero => exact Nat.le_refl 0
        | succ j' =>
          have := byNameIdx_none t n hb j' x hx
          rw [hn] at this
          exact Bool.noConfusion this
      · rw [if_neg hy]
        intro h
        exact Option.noConfusion h

theorem modifyIdx_get? {α : Type} (f : α → α) (l : List α) (i j : Nat) :
    (modifyIdx f i l).get? j = if i = j then (l.get? j).map f else l.get? j := by
  induction l generalizing i j with
  | nil => simp [modifyIdx]
  | cons y t ih =>
    cases i with
    | zero =>
      cases j with
      | zero => simp [modifyIdx]
      | succ j' => simp [modifyIdx]
    | succ i' =>
      cases j with
      | zero => simp [modifyIdx]
      | succ j' =>
        simp only [modifyIdx, List.get?_cons_succ, ih, Nat.succ.injEq]

theorem modifyIdx_length {α : Type} (f : α → α) (l : List α) (i : Nat) :
    (modifyIdx f i l).length = l.length := by
  induction l generalizing i with
  | nil => cases i <;> rfl
  | cons y t ih =>
    cases i with
    | zero => rfl
    | succ i' => simp [modifyIdx, ih]

theorem modifyIdx_append {α : Type} (f : α → α) (l l2 : List α) (i : Nat)
    (h : i < l.length) : modifyIdx f i (l ++ l2) = modifyIdx f i l ++ l2 := by
  induction l generalizing i with
  | nil => simp at h
  | cons y t ih =>
    cases i with
    | zero => rfl
    | succ i' =>
      simp only [List.cons_append, modifyIdx, List.cons.injEq, true_and]
      exact ih i' (Nat.lt_of_succ_lt_succ h)

theorem specUpd_length (xs : List JValue) (patch : List (String × Record))
    (n : Nat) (l : List JValue) : (specUpd xs patch n l).length = l.length := by
  induction l generalizing n with
  | nil => rfl
  | cons y t ih => simp [specUpd, ih]

theorem specUpd_get? (xs : List JValue) (patch : List (String × Record))
    (n : Nat) (l : List JValue) (j : Nat) :
    (specUpd xs patch n l).get? j = (l.get? j).map (applyHit xs patch (n + j)) := by
  induction l generalizing n j with
  | nil => simp [specUpd]
  | cons y t ih =>
    cases j with
    | zero => simp [specUpd]
    | succ j' =>
      simp only [specUpd, List.get?_cons_succ, ih]
      have : n + 1 + j' = n + (j' + 1) := by omega
      rw [this]

theorem specUpd_congr (xs : List JValue) (p1 p2 : List (String × Record))
    (h : ∀ i x, applyHit xs p1 i x = applyHit xs p2 i x) :
    ∀ (n : Nat) (l : List JValue), specUpd xs p1 n l = specUpd xs p2 n l := by
  intro n l
  induction l generalizing n with
  | nil => rfl
  | cons y t ih => simp [specUpd, h, ih]

theorem applyHit_nil (xs : List JValue) (i : Nat) (x : JValue) :
    applyHit xs [] i x = x := rfl

theorem specUpd_nil_patch (xs : List JValue) (n : Nat) (l : List JValue) :
    specUpd xs [] n l = l := by
  induction l generalizing n with
  | nil => rfl
  | cons y t ih => simp [specUpd, applyHit_nil, ih]

theorem applyHit_append_miss (xs : List JValue) (pre : List (String × Record))
    (p : String × Record) (i : Nat)
    (hmiss : (byNameIdx xs p.1 == some i) = false) (x : JValue) :
    applyHit xs (pre ++ [p]) i x = applyHit xs pre i x := by
  unfold applyHit
  rw [List.find?_append]
  have h1 : List.find? (fun q => byNameIdx xs q.1 == some i) [p] = none := by
    rw [List.find?_cons_of_neg _ (by simp [hmiss])]
    rfl
  rw [h1, Option.or_none]

theorem listStep_spec (xs : List JValue) (pre : List (String × Record))
    (p : String × Record) (hpre : p.1 ∉ pre.map Prod.fst) :
    listStep xs (mergeListSpec xs pre) p = mergeListSpec xs (pre ++ [p]) := by
  unfold listStep
  cases hb : byNameIdx xs p.1 with
  | none =>
    have hupd : specUpd xs (pre ++ [p]) 0 xs = specUpd xs pre 0 xs := by
      apply specUpd_congr
      intro i x
      exact applyHit_append_miss xs pre p i (by rw [hb]; rfl) x
    have hnews : specNews xs (pre ++ [p]) =
        specNews xs pre ++ [JValue.obj (recordToObj p.1 p.2)] := by
      simp [specNews, List.filter_append, hb]
    unfold mergeListSpec
    rw [hupd, hnews, ← List.append_assoc]
  | some i =>
    dsimp only
    obtain ⟨xi, hxi, hni⟩ := byNameIdx_get xs p.1 i hb
    have hilt : i < xs.length := (List.get?_eq_some.mp hxi).1
    have hfind_pre : List.find? (fun q => byNameIdx xs q.1 == some i) pre = none := by
      rw [List.find?_eq_none]
      intro q hq hbq
      have hq1 : byNameIdx xs q.1 = some i := eq_of_beq hbq
      obtain ⟨x', hx', hn'⟩ := byNameIdx_get xs q.1 i hq1
      rw [hxi] at hx'
      obtain rfl : xi = x' := Option.some.inj hx'
      have heq : q.1 = p.1 := objNameIs_unique xi q.1 p.1 hn' hni
      exact hpre (heq ▸ List.mem_map_of_mem Prod.fst hq)
    unfold mergeListSpec
    have hlen : i < (specUpd xs pre 0 xs).length := by
      rw [specUpd_length]
      exact hilt
    rw [modifyIdx_append _ _ _ _ hlen]
    have hnews : specNews xs (pre ++ [p]) = specNews xs pre := by
      simp [specNews, List.filter_append, hb]
    rw [hnews]
    congr 1
    apply List.ext_get?
    intro j
    rw [modifyIdx_get?, specUpd_get?, specUpd_get?]
    simp only [Nat.zero_add]
    by_cases hij : i = j
    · subst hij
      rw [if_pos rfl, hxi]
      have h1 : applyHit xs pre i xi = xi := by
        unfold applyHit
        rw [hfind_pre]
      have h2 : applyHit xs (pre ++ [p]) i xi = mergeObjFun p.2 xi := by
        unfold applyHit
        rw [List.find?_append, hfind_pre]
        have hp : ((fun q => byNameIdx xs q.1 == some i) p) = true := by
          show (byNameIdx xs p.1 == some i) = true
          rw [hb]
          exact beq_self_eq_true _
        have hfp : List.find? (fun q => byNameIdx xs q.1 == some i) [p] = some p :=
          @List.find?_cons_of_pos _ (fun q => byNameIdx xs q.1 == some i) p [] hp
        rw [hfp]
        rfl
      simp [h1, h2]
    · rw [if_neg hij]
      cases hxj : xs.get? j with
      | none => rfl
      | some x =>
        have hne : ¬ (some i = some j) := fun hc => hij (Option.some.inj hc)
        have := applyHit_append_miss xs pre p j
          (by rw [hb]; exact beq_eq_false_iff_ne.mpr hne) x
        rw [Option.map_some', Option.map_some', this]

theorem mergeList_spec_aux (xs : List JValue) :
    ∀ (rem pre : List (String × Record)),
      ((pre ++ rem).map Prod.fst).Nodup →
      List.foldl (listStep xs) (mergeListSpec xs pre) rem =
        mergeListSpec xs (pre ++ rem) := by
  intro rem
  induction rem with
  | nil =>
    intro pre h
    rw [List.append_nil]
    rfl
  | cons p rest ih =>
    intro pre h
    rw [List.foldl_cons]
    have hpre : p.1 ∉ pre.map Prod.fst := by
      rw [List.map_append, List.nodup_append] at h
      intro hmem
      exact h.2.2 hmem (by simp)
    rw [listStep_spec xs pre p hpre]
    have h2 : (((pre ++ [p]) ++ rest).map Prod.fst).Nodup := by
      rw [List.append_assoc]
      exact h
    rw [ih (pre ++ [p]) h2, List.append_assoc]
    rfl

theorem mergeListSpec_nil (xs : List JValue) : mergeListSpec xs [] = xs := by
  unfold mergeListSpec
  rw [specUpd_nil_patch]
  simp [specNews]

theorem mergeList_eq_spec (xs : List JValue) (patch : List (String × Record))
    (h : (patch.map Prod.fst).Nodup) : mergeList xs patch = mergeListSpec xs patch := by
  have h0 : (([] ++ patch).map Prod.fst).Nodup := by simpa using h
  have haux := mergeList_spec_aux xs patch [] h0
  rw [mergeListSpec_nil] at haux
  rw [List.nil_append] at haux
  exact haux

/-- C3 counterexample: merging the empty patch into the sequence
`[{"name": {}}]` does not return a sequence — building `by_name` hashes the
mapping stored under `"name"` and raises `TypeError`. -/
theorem claim3_unhashable_no_sequence :
    merge_into_pets (JValue.arr [JValue.obj [("name", JValue.obj [])]]) [] =
      Except.error MergeErr.typeErrorUnhashable ∧
    ¬ ∃ ys, merge_into_pets (JValue.arr [JValue.obj [("name", JValue.obj [])]]) [] =
        Except.ok (JValue.arr ys) := by
  refine ⟨rfl, ?_⟩
  rintro ⟨ys, h⟩
  rw [show merge_into_pets (JValue.arr [JValue.obj [("name", JValue.obj [])]])
      ([] : List (String × Record)) = Except.error MergeErr.typeErrorUnhashable from rfl] at h
  exact Except.noConfusion h

/-- C3 (amended): a patch (an extractor output, hence with duplicate-free
names) merged into a mapping dataset yields a mapping; merged into a sequence
dataset whose `name` values are hashable (no element is a mapping carrying an
array/mapping under `"name"` — such an element makes the merge raise a type
error instead of returning) it yields exactly the original elements, each
merged in place where the patch targets it, followed by the genuinely new
entities appended at the end in patch order; the output shape matches the
input shape. -/
theorem claim3_shape_preserved (patch : List (String × Record))
    (hn : (patch.map Prod.fst).Nodup) :
    (∀ kvs, merge_into_pets (JValue.obj kvs) patch =
      Except.ok (JValue.obj (mergeDict kvs patch))) ∧
    (∀ xs, hasUnhashableName xs = false →
      merge_into_pets (JValue.arr xs) patch =
        Except.ok (JValue.arr (specUpd xs patch 0 xs ++ specNews xs patch)) ∧
      (specUpd xs patch 0 xs).length = xs.length) := by
  refine ⟨fun kvs => rfl, fun xs hu => ⟨?_, specUpd_length ..⟩⟩
  rw [merge_arr_def, hu]
  simp only [Bool.false_eq_true, if_false]
  rw [mergeList_eq_spec xs patch hn]
  rfl

theorem claim3_witness :
    (∀ kvs, merge_into_pets (JValue.obj kvs) [("b", { name := "b" })] =
      Except.ok (JValue.obj (mergeDict kvs [("b", { name := "b" })]))) ∧
    (∀ xs, hasUnhashableName xs = false →
      merge_into_pets (JValue.arr xs) [("b", { name := "b" })] =
        Except.ok (JValue.arr (specUpd xs [("b", { name := "b" })] 0 xs ++
          specNews xs [("b", { name := "b" })])) ∧
      (specUpd xs [("b", { name := "b" })] 0 xs).length = xs.length) :=
  claim3_shape_preserved [("b", { name := "b" })] (by simp)

theorem find?_eq_some_of_unique {α : Type} (l : List α) (pr : α → Bool) (a : α)
    (ha : a ∈ l) (hpa : pr a = true) (hu : ∀ b ∈ l, pr b = true → b = a) :
    l.find? pr = some a := by
  induction l with
  | nil => simp at ha
  | cons hd tl ih =>
    by_cases hph : pr hd = true
    · rw [List.find?_cons_of_pos _ hph, hu hd (List.mem_cons_self _ _) hph]
    · rw [List.find?_cons_of_neg _ (by simp [hph])]
      rcases List.mem_cons.mp ha with rfl | hmem
      · exact absurd hpa hph
      · exact ih hmem (fun b hb hpb => hu b (List.mem_cons_of_mem _ hb) hpb)

theorem mem_key_unique (patch : List (String × Record))
    (h : (patch.map Prod.fst).Nodup) (n : String) (e1 e2 : Record)
    (h1 : (n, e1) ∈ patch) (h2 : (n, e2) ∈ patch) : e1 = e2 := by
  induction patch with
  | nil => simp at h1
  | cons hd tl ih =>
    rw [List.map_cons, List.nodup_cons] at h
    rcases List.mem_cons.mp h1 with he1 | he1 <;> rcases List.mem_cons.mp h2 with he2 | he2
    · exact congrArg Prod.snd (he1.trans he2.symm)
    · have hhd : hd.1 = n := by rw [← he1]
      have hmem : n ∈ tl.map Prod.fst := List.mem_map_of_mem Prod.fst he2
      exact absurd (hhd.symm ▸ hmem) h.1
    · have hhd : hd.1 = n := by rw [← he2]
      have hmem : n ∈ tl.map Prod.fst := List.mem_map_of_mem Prod.fst he1
      exact absurd (hhd.symm ▸ hmem) h.1
    · exact ih h.2 he1 he2

/-- C10: with duplicate `name`s in a sequence dataset, `by_name` keeps the
last occurrence, so the patch record for that name is applied to the last
such object only; all earlier objects with that name are left unchanged and
no new object is appended for that name. -/
theorem claim10_last_occurrence_wins (xs : List JValue) (patch : List (String × Record))
    (n : String) (extra : Record) (j : Nat)
    (hnodup : (patch.map Prod.fst).Nodup)
    (hmem : (n, extra) ∈ patch)
    (hj : byNameIdx xs n = some j)
    (hu : hasUnhashableName xs = false) :
    ∃ ys, merge_into_pets (JValue.arr xs) patch = Except.ok (JValue.arr ys) ∧
      (∃ xj, xs.get? j = some xj ∧ objNameIs xj n = true) ∧
      (∀ i x, xs.get? i = some x → objNameIs x n = true → i ≤ j) ∧
      ys.get? j = (xs.get? j).map (mergeObjFun extra) ∧
      (∀ i x, ¬ i = j → xs.get? i = some x → objNameIs x n = true →
        ys.get? i = some x) ∧
      (∀ y ∈ specNews xs patch, ∀ d, y = JValue.obj d →
        ¬ objGet d "name" = some (JValue.str n)) ∧
      ys.length = xs.length + (specNews xs patch).length := by
  obtain ⟨xj, hxj, hnj⟩ := byNameIdx_get xs n j hj
  have hjlt : j < xs.length := (List.get?_eq_some.mp hxj).1
  refine ⟨mergeListSpec xs patch, ?_, ⟨xj, hxj, hnj⟩, byNameIdx_last xs n j hj, ?_, ?_, ?_, ?_⟩
  · rw [merge_arr_def, hu]
    simp only [Bool.false_eq_true, if_false]
    rw [mergeList_eq_spec xs patch hnodup]
  · -- position j receives the merge
    unfold mergeListSpec
    have hjlen : j < (specUpd xs patch 0 xs).length := by
      rw [specUpd_length]
      exact hjlt
    rw [List.get?_append hjlen, specUpd_get?]
    simp only [Nat.zero_add]
    have hfind : List.find? (fun q => byNameIdx xs q.1 == some j) patch = some (n, extra) := by
      apply find?_eq_some_of_unique patch _ (n, extra) hmem
      · show (byNameIdx xs n == some j) = true
        rw [hj]
        exact beq_self_eq_true _
      · intro b hb hpb
        have hbj : byNameIdx xs b.1 = some j := eq_of_beq hpb
        obtain ⟨x', hx', hn'⟩ := byNameIdx_get xs b.1 j hbj
        rw [hxj] at hx'
        obtain rfl : xj = x' := Option.some.inj hx'
        have hb1 : b.1 = n := objNameIs_unique xj b.1 n hn' hnj
        have hbmem : (n, b.2) ∈ patch := by
          rw [← hb1]
          exact hb
        have h2 : b.2 = extra := mem_key_unique patch hnodup n b.2 extra hbmem hmem
        exact Prod.ext hb1 h2
    rw [hxj]
    unfold applyHit
    rw [hfind]
  · -- earlier duplicates untouched
    intro i x hne hxi hni
    have hilt : i < xs.length := (List.get?_eq_some.mp hxi).1
    unfold mergeListSpec
    have hilen : i < (specUpd xs patch 0 xs).length := by
      rw [specUpd_length]
      exact hilt
    rw [List.get?_append hilen, specUpd_get?]
    simp only [Nat.zero_add]
    have hfind : List.find? (fun q => byNameIdx xs q.1 == some i) patch = none := by
      rw [List.find?_eq_none]
      intro q hq hpq
      have hqi : byNameIdx xs q.1 = some i := eq_of_beq hpq
      obtain ⟨x', hx', hn'⟩ := byNameIdx_get xs q.1 i hqi
      rw [hxi] at hx'
      obtain rfl : x = x' := Option.some.inj hx'
      have hq1 : q.1 = n := objNameIs_unique x q.1 n hn' hni
      rw [hq1] at hqi
      rw [hj] at hqi
      exact hne (Option.some.inj hqi).symm
    rw [hxi]
    unfold applyHit
    rw [hfind]
    rfl
  · -- no new object for that name
    intro y hy d hyd
    unfold specNews at hy
    rw [List.mem_map] at hy
    obtain ⟨q, hqmem, hqy⟩ := hy
    rw [List.mem_filter] at hqmem
    obtain ⟨hq, hqfresh⟩ := hqmem
    intro hname
    rw [hyd] at hqy
    have hd : recordToObj q.1 q.2 = d := JValue.obj.inj hqy
    rw [← hd] at hname
    have : objGet (recordToObj q.1 q.2) "name" = some (JValue.str q.1) := by
      simp [recordToObj, objGet]
    rw [this] at hname
    have hq1 : q.1 = n := JValue.str.inj (Option.some.inj hname)
    rw [hq1] at hqfresh
    rw [hj] at hqfresh
    exact Bool.noConfusion hqfresh
  · -- length accounting
    unfold mergeListSpec
    rw [List.length_append, specUpd_length]

theorem mergeDict_obj_pres (patch : List (String × Record)) (n k : String)
    (hk : isMergeKey k = false) (tv : List (String × JValue)) :
    ∀ (kvs : List (String × JValue)) (tvc : List (String × JValue)),
      objGet kvs n = some (JValue.obj tvc) →
      objGet tvc k = objGet tv k →
      ∃ tv', objGet (List.foldl dictStep kvs patch) n = some (JValue.obj tv') ∧
        objGet tv' k = objGet tv k := by
  induction patch with
  | nil =>
    intro kvs tvc hget hpres
    exact ⟨tvc, hget, hpres⟩
  | cons p rest ih =>
    intro kvs tvc hget hpres
    rw [List.foldl_cons]
    by_cases hn : n = p.1
    · have hget' : objGet kvs p.1 = some (JValue.obj tvc) := by
        rw [← hn]
        exact hget
      have hstep : dictStep kvs p = objSet kvs p.1 (JValue.obj (mergeExtra tvc p.2)) := by
        unfold dictStep
        rw [hget']
      refine ih (dictStep kvs p) (mergeExtra tvc p.2) ?_ ?_
      · rw [hstep, hn]
        exact objGet_objSet_self ..
      · rw [mergeExtra_objGet_other _ _ _ hk]
        exact hpres
    · refine ih (dictStep kvs p) tvc ?_ hpres
      rw [dictStep_objGet_ne _ _ _ hn]
      exact hget

theorem foldl_listStep_get (xs : List JValue) (patch : List (String × Record))
    (i : Nat) (k : String) (hk : isMergeKey k = false)
    (tv : List (String × JValue)) :
    ∀ (acc : List JValue) (tvc : List (String × JValue)),
      acc.get? i = some (JValue.obj tvc) →
      objGet tvc k = objGet tv k →
      ∃ tv', (List.foldl (listStep xs) acc patch).get? i = some (JValue.obj tv') ∧
        objGet tv' k = objGet tv k := by
  induction patch with
  | nil =>
    intro acc tvc hget hpres
    exact ⟨tvc, hget, hpres⟩
  | cons p rest ih =>
    intro acc tvc hget hpres
    rw [List.foldl_cons]
    unfold listStep
    cases hb : byNameIdx xs p.1 with
    | none =>
      dsimp only
      refine ih (acc ++ [JValue.obj (recordToObj p.1 p.2)]) tvc ?_ hpres
      have hi : i < acc.length := (List.get?_eq_some.mp hget).1
      rw [List.get?_append hi]
      exact hget
    | some jdx =>
      dsimp only
      by_cases hje : jdx = i
      · subst hje
        refine ih (modifyIdx (mergeObjFun p.2) jdx acc) (mergeExtra tvc p.2) ?_ ?_
        · rw [modifyIdx_get?, if_pos rfl, hget]
          rfl
        · rw [mergeExtra_objGet_other _ _ _ hk]
          exact hpres
      · refine ih (modifyIdx (mergeObjFun p.2) jdx acc) tvc ?_ hpres
        rw [modifyIdx_get?, if_neg hje]
        exact hget

/-- C6: a successful merge reads and writes only the five recognized field
names (plus `name` on newly created sequence entries): on any existing target
entry — in either dataset shape — every field other than
grade/s0/sg/attr/route has the same value after the merge as before. -/
theorem claim6_frame_effect (data : JValue) (patch : List (String × Record))
    (out : JValue) (hok : merge_into_pets data patch = Except.ok out)
    (k : String) (hk : isMergeKey k = false) :
    (∀ kvs n tv, data = JValue.obj kvs → objGet kvs n = some (JValue.obj tv) →
      ∃ kvs' tv', out = JValue.obj kvs' ∧ objGet kvs' n = some (JValue.obj tv') ∧
        objGet tv' k = objGet tv k) ∧
    (∀ xs i tv, data = JValue.arr xs → xs.get? i = some (JValue.obj tv) →
      ∃ ys tv', out = JValue.arr ys ∧ ys.get? i = some (JValue.obj tv') ∧
        objGet tv' k = objGet tv k) := by
  constructor
  · rintro kvs n tv rfl hv
    have hout : JValue.obj (mergeDict kvs patch) = out := Except.ok.inj hok
    obtain ⟨tv', h1, h2⟩ := mergeDict_obj_pres patch n k hk tv kvs tv hv rfl
    exact ⟨mergeDict kvs patch, tv', hout.symm, h1, h2⟩
  · rintro xs i tv rfl hv
    rw [merge_arr_def] at hok
    by_cases hu : hasUnhashableName xs = true
    · rw [if_pos hu] at hok
      exact absurd hok (fun hc => Except.noConfusion hc)
    · rw [if_neg hu] at hok
      have hout : JValue.arr (mergeList xs patch) = out := Except.ok.inj hok
      obtain ⟨tv', h1, h2⟩ := foldl_listStep_get xs patch i k hk tv xs tv hv rfl
      exact ⟨mergeList xs patch, tv', hout.symm, h1, h2⟩

theorem claim1_witness :
    ∃ r', lookupRec (processLine
        ⟨[("몽키", { name := "몽키", grade := some "최상급" })], none⟩
        "[몽키] 페트 검색 결과 입니다.".data).pets
        (String.mk (pyStrip "몽키".data)) = some r' ∧
      r'.grade =
        if (none : Option Char).isSome ||
            ((lookupRec [("몽키", { name := "몽키", grade := some "최상급" })]
              (String.mk (pyStrip "몽키".data))).bind Record.grade).isNone
        then some (grade_digit_to_str none)
        else (lookupRec [("몽키", { name := "몽키", grade := some "최상급" })]
          (String.mk (pyStrip "몽키".data))).bind Record.grade :=
  claim1_grade_rule.2.2.2.2
    ⟨[("몽키", { name := "몽키", grade := some "최상급" })], none⟩
    "[몽키] 페트 검색 결과 입니다.".data "몽키".data none rfl

theorem claim2_witness :
    attrPos ⟨0, 0, 6, 0⟩ = true ∧
    (applySkill "기술 :a, 속성 : 화6, 경로 :b".data { name := "A" }).attr =
      some (segAttr "화6".data) :=
  ⟨claim2_attr_rule.1 "[A] 페트 검색 결과 입니다.\n기술 :a, 속성 : 화6, 경로 :b".data "A"
      { name := "A", grade := some "일반", attr := some ⟨0, 0, 6, 0⟩, route := some "b" }
      ⟨0, 0, 6, 0⟩ rfl rfl,
    claim2_attr_rule.2.2.2 "기술 :a, 속성 : 화6, 경로 :b".data { name := "A" }
      "화6".data rfl rfl⟩

theorem claim4_witness :
    ((parse_chat "[A] 페트 검색 결과 입니다.".data).map Prod.fst).Nodup :=
  (claim4_unique_records "[A] 페트 검색 결과 입니다.".data).1

theorem claim5_witness :
    (lookupRec (processLine ⟨[("A", { name := "A" })], some "A"⟩
        "성장 : 공격력 2, 방어력 3, 순발력 4, 성장 9, 내구력 5".data).pets "A").map Record.sg =
      (lookupRec [("A", { name := "A" })] "A").map (fun _ => some ⟨2, 3, 4, 5⟩) :=
  claim5_aggregate_discarded.1 ⟨[("A", { name := "A" })], some "A"⟩
    "성장 : 공격력 2, 방어력 3, 순발력 4, 성장 9, 내구력 5".data "A" 2 3 4 9 5
    rfl rfl rfl rfl

theorem claim6_witness :
    ∃ kvs' tv',
      JValue.obj (mergeDict [("a", JValue.obj [("custom", JValue.str "keep"), ("grade", JValue.str "x")])]
        [("a", { name := "a", grade := some "일반" })]) = JValue.obj kvs' ∧
      objGet kvs' "a" = some (JValue.obj tv') ∧
      objGet tv' "custom" =
        objGet [("custom", JValue.str "keep"), ("grade", JValue.str "x")] "custom" :=
  (claim6_frame_effect
      (JValue.obj [("a", JValue.obj [("custom", JValue.str "keep"), ("grade", JValue.str "x")])])
      [("a", { name := "a", grade := some "일반" })]
      (JValue.obj (mergeDict [("a", JValue.obj [("custom", JValue.str "keep"), ("grade", JValue.str "x")])]
        [("a", { name := "a", grade := some "일반" })]))
      rfl "custom" rfl).1
    [("a", JValue.obj [("custom", JValue.str "keep"), ("grade", JValue.str "x")])]
    "a" [("custom", JValue.str "keep"), ("grade", JValue.str "x")] rfl rfl

theorem claim8_witness :
    ∀ nm, (lookupRec (processLine (processLine ⟨[("A", { name := "A" })], some "A"⟩
          "초기 : 레벨 1, 공격력 1, 방어력 2, 순발력 3, 내구력 4".data)
          "초기 : 레벨 1, 공격력 1, 방어력 2, 순발력 3, 내구력 4".data).pets nm).map Record.s0 =
      (lookupRec (processLine ⟨[("A", { name := "A" })], some "A"⟩
          "초기 : 레벨 1, 공격력 1, 방어력 2, 순발력 3, 내구력 4".data).pets nm).map Record.s0 :=
  claim8_stat_idempotent.1 ⟨[("A", { name := "A" })], some "A"⟩
    "초기 : 레벨 1, 공격력 1, 방어력 2, 순발력 3, 내구력 4".data ⟨1, 2, 3, 4⟩ rfl rfl

theorem claim10_witness :
    ∃ ys, merge_into_pets (JValue.arr [JValue.obj [("name", JValue.str "a"), ("v", JValue.num 1)],
        JValue.obj [("name", JValue.str "a"), ("v", JValue.num 2)]])
        [("a", { name := "a", grade := some "일반" })] = Except.ok (JValue.arr ys) ∧
      (∃ xj, [JValue.obj [("name", JValue.str "a"), ("v", JValue.num 1)],
        JValue.obj [("name", JValue.str "a"), ("v", JValue.num 2)]].get? 1 = some xj ∧
        objNameIs xj "a" = true) ∧
      (∀ i x, [JValue.obj [("name", JValue.str "a"), ("v", JValue.num 1)],
        JValue.obj [("name", JValue.str "a"), ("v", JValue.num 2)]].get? i = some x →
        objNameIs x "a" = true → i ≤ 1) ∧
      ys.get? 1 = ([JValue.obj [("name", JValue.str "a"), ("v", JValue.num 1)],
        JValue.obj [("name", JValue.str "a"), ("v", JValue.num 2)]].get? 1).map
          (mergeObjFun { name := "a", grade := some "일반" }) ∧
      (∀ i x, ¬ i = 1 → [JValue.obj [("name", JValue.str "a"), ("v", JValue.num 1)],
        JValue.obj [("name", JValue.str "a"), ("v", JValue.num 2)]].get? i = some x →
        objNameIs x "a" = true → ys.get? i = some x) ∧
      (∀ y ∈ specNews [JValue.obj [("name", JValue.str "a"), ("v", JValue.num 1)],
        JValue.obj [("name", JValue.str "a"), ("v", JValue.num 2)]]
          [("a", { name := "a", grade := some "일반" })], ∀ d, y = JValue.obj d →
        ¬ objGet d "name" = some (JValue.str "a")) ∧
      ys.length = [JValue.obj [("name", JValue.str "a"), ("v", JValue.num 1)],
        JValue.obj [("name", JValue.str "a"), ("v", JValue.num 2)]].length +
        (specNews [JValue.obj [("name", JValue.str "a"), ("v", JValue.num 1)],
          JValue.obj [("name", JValue.str "a"), ("v", JValue.num 2)]]
          [("a", { name := "a", grade := some "일반" })]).length :=
  claim10_last_occurrence_wins
    [JValue.obj [("name", JValue.str "a"), ("v", JValue.num 1)],
      JValue.obj [("name", JValue.str "a"), ("v", JValue.num 2)]]
    [("a", { name := "a", grade := some "일반" })] "a" { name := "a", grade := some "일반" } 1
    (by simp) (List.mem_cons_self _ _) rfl rfl
